import Mathlib

/-!
Verification of the PRV (Pulse Rate Variability) core from `src/PRV/prv.py`.

The embedding models Python floats by exact rationals (ℚ) wherever the
computation is purely arithmetic/comparative, and by real numbers (ℝ) for the
two reducers that take a square root (`rmssd`, `sdnn`).  Python list slicing
(including its negative-index and clamping rules, which `chunckData` can hit
when `t = 0`) is modelled by `pySlice`.  A Python `ZeroDivisionError` is
modelled by an `Option` result (`none` = the call raises).
-/

namespace PRV

/-- Python slice semantics for the expression written in the source as a slice
of a list from index `a` (a nonnegative int) up to index `b` (an int that may
be negative, in which case it counts from the end); bounds are clamped, never
an error. -/
def pySlice {α : Type} (l : List α) (a : ℕ) (b : ℤ) : List α :=
  if 0 ≤ b then (l.take b.toNat).drop a
  else (l.take (l.length - (-b).toNat)).drop a

/-- Loop of `chunckData` from the source: scan position `t` runs over the
indices of `time`; when `time[t] - time[start_index] >= window_size` the slice
of the interval data from `start_index` up to `t - 1` (Python slice, so `t - 1`
is an integer that is `-1` when `t = 0`) is taken; if it is nonempty the record
`(time[start_index], time[t], operation slice)` is appended, and in either case
`start_index` becomes `t`. -/
def chunckAux {α β : Type} (time : List ℚ) (data : List α) (window_size : ℚ)
    (operation : List α → β) (start_index t : ℕ) : List (ℚ × ℚ × β) :=
  if t < time.length then
    if time.getD t 0 - time.getD start_index 0 ≥ window_size then
      if 0 < (pySlice data start_index ((t : ℤ) - 1)).length then
        (time.getD start_index 0, time.getD t 0,
            operation (pySlice data start_index ((t : ℤ) - 1)))
          :: chunckAux time data window_size operation t (t + 1)
      else chunckAux time data window_size operation t (t + 1)
    else chunckAux time data window_size operation start_index (t + 1)
  else []
termination_by time.length - t

/-- The function `chunckData` of `src/PRV/prv.py`: chunk the data by the given
window size and apply `operation` to each chunk.  The returned data frame with
columns `startTime`, `endTime`, `values` is modelled as the list of its rows. -/
def chunckData {α β : Type} (time : List ℚ) (data : List α) (window_size : ℚ)
    (operation : List α → β) : List (ℚ × ℚ × β) :=
  chunckAux time data window_size operation 0 0

/-- The function `rmssd` of the source: sum the squared successive differences
with a loop `for i in range(1, len(ibi))` (modelled by zipping the list with
its tail), then return `sqrt(sum / (len(ibi) - 1))` when the sum is positive
and `0` otherwise. -/
noncomputable def rmssd (ibi : List ℚ) : ℝ :=
  let s : ℚ := ((ibi.zip ibi.tail).map (fun p => (p.2 - p.1) * (p.2 - p.1))).sum
  if s > 0 then Real.sqrt ((s : ℝ) / ((ibi.length - 1 : ℕ) : ℝ)) else 0

/-- The function `sdnn` of the source, which is `np.std(ibi)`: the population
standard deviation `sqrt(mean((x - mean)^2))`.  (On the empty list `np.std`
yields NaN; here the conventional `0/0 = 0` gives `0`.  No claim concerns the
value of `sdnn` on the empty list.) -/
noncomputable def sdnn (ibi : List ℚ) : ℝ :=
  Real.sqrt ((((ibi.map (fun x =>
    (x - ibi.sum / (ibi.length : ℚ)) * (x - ibi.sum / (ibi.length : ℚ)))).sum) /
      (ibi.length : ℚ) : ℚ))

/-- The function `nn50` of the source: a counter loop over
`i in range(1, len(ibi))` incremented when `ibi[i] - ibi[i-1] > 0.05`,
modelled as the length of the filtered list of successive pairs. -/
def nn50 (ibi : List ℚ) : ℕ :=
  ((ibi.zip ibi.tail).filter (fun p => p.2 - p.1 > 0.05)).length

/-- The function `pnn50` of the source: `nn50(ibi) * 100 / len(ibi)`.  The
Python expression raises `ZeroDivisionError` on an empty list (modelled by
`none`); otherwise it is the exact rational quotient. -/
def pnn50 (ibi : List ℚ) : Option ℚ :=
  if ibi.length = 0 then none
  else some (((nn50 ibi : ℚ) * 100) / (ibi.length : ℚ))

/-- The function `hrMaxMin` of the source: running maximum initialized to `0`
and running minimum initialized to `1000` of the heart rates `60 / ibi[i]`,
returning `hrmax - hrmin`. -/
def hrMaxMin (ibi : List ℚ) : ℚ :=
  let final := ibi.foldl (fun (s : ℚ × ℚ) x =>
    (if 60 / x > s.1 then 60 / x else s.1,
     if 60 / x < s.2 then 60 / x else s.2)) (0, 1000)
  final.1 - final.2

/-- Entry point `getRMSSD` of the source. -/
noncomputable def getRMSSD (time : List ℚ) (data : List ℚ) : List (ℚ × ℚ × ℝ) :=
  chunckData time data 60 rmssd

/-- Entry point `getHRMaxMin` of the source. -/
def getHRMaxMin (time : List ℚ) (data : List ℚ) : List (ℚ × ℚ × ℚ) :=
  chunckData time data 120 hrMaxMin

/-- Entry point `getNN50` of the source. -/
def getNN50 (time : List ℚ) (data : List ℚ) : List (ℚ × ℚ × ℕ) :=
  chunckData time data 120 nn50

/-- Entry point `getPNN50` of the source. -/
def getPNN50 (time : List ℚ) (data : List ℚ) : List (ℚ × ℚ × Option ℚ) :=
  chunckData time data 120 pnn50

/-- Entry point `getSDNN` of the source. -/
noncomputable def getSDNN (time : List ℚ) (data : List ℚ) : List (ℚ × ℚ × ℝ) :=
  chunckData time data 60 sdnn

/-- The windowing scan exactly as the specification words it (claim C1): scan
positions `t` from `0` to the end; whenever
`timestamps[t] - timestamps[windowStartIndex] >= windowSizeSeconds`, the
window sample slice is the intervals at positions `[windowStartIndex, t - 1)`,
a record `(timestamps[windowStartIndex], timestamps[t], reduce slice)` is
emitted exactly when that slice is non-empty, and `windowStartIndex` advances
to `t` regardless. -/
def chunckSpecAux {α β : Type} (timestamps : List ℚ) (intervals : List α)
    (windowSizeSeconds : ℚ) (reduce : List α → β)
    (windowStartIndex t : ℕ) : List (ℚ × ℚ × β) :=
  if t < timestamps.length then
    if timestamps.getD t 0 - timestamps.getD windowStartIndex 0 ≥
        windowSizeSeconds then
      (if ((intervals.drop windowStartIndex).take
            (t - 1 - windowStartIndex)).isEmpty then []
      else
        [(timestamps.getD windowStartIndex 0, timestamps.getD t 0,
          reduce ((intervals.drop windowStartIndex).take
            (t - 1 - windowStartIndex)))])
        ++ chunckSpecAux timestamps intervals windowSizeSeconds reduce t (t + 1)
    else chunckSpecAux timestamps intervals windowSizeSeconds reduce
      windowStartIndex (t + 1)
  else []
termination_by timestamps.length - t

/-- The whole spec-worded scan, started at scan position `0` with
`windowStartIndex = 0`; samples after the last window close are discarded and
records appear in scan order. -/
def chunckSpec {α β : Type} (timestamps : List ℚ) (intervals : List α)
    (windowSizeSeconds : ℚ) (reduce : List α → β) : List (ℚ × ℚ × β) :=
  chunckSpecAux timestamps intervals windowSizeSeconds reduce 0 0

/-- Counting rule as claim C2 words it: the number of adjacent-index pairs
whose elements differ by more than 0.05 s, reading "differing by" as the
absolute difference. -/
def nn50Abs (ibi : List ℚ) : ℕ :=
  ((ibi.zip ibi.tail).filter (fun p => |p.2 - p.1| > 0.05)).length

/-- The interval sequence of the spec scenario: 0.8, 0.9 repeated `n` times. -/
def altBlocks : ℕ → List ℚ
  | 0 => []
  | n + 1 => 0.8 :: 0.9 :: altBlocks n

lemma nn50_cons_cons (a b : ℚ) (l : List ℚ) :
    nn50 (a :: b :: l) = (if b - a > 0.05 then 1 else 0) + nn50 (b :: l) := by
  by_cases hd : b - a > 0.05
  · simp [nn50, List.zip, List.filter_cons, hd, Nat.add_comm]
  · simp [nn50, List.zip, List.filter_cons, hd]

lemma nn50Abs_cons_cons (a b : ℚ) (l : List ℚ) :
    nn50Abs (a :: b :: l) = (if |b - a| > 0.05 then 1 else 0) + nn50Abs (b :: l) := by
  by_cases hd : |b - a| > 0.05
  · simp [nn50Abs, List.zip, List.filter_cons, hd, Nat.add_comm]
  · simp [nn50Abs, List.zip, List.filter_cons, hd]

lemma altBlocks_succ (n : ℕ) : altBlocks (n + 1) = 0.8 :: 0.9 :: altBlocks n := rfl

lemma nn50_altBlocks (n : ℕ) : nn50 (altBlocks n) = n := by
  induction n with
  | zero => rfl
  | succ m ih =>
    have hhead : nn50 ((0.9 : ℚ) :: altBlocks m) = nn50 (altBlocks m) := by
      cases m with
      | zero => rfl
      | succ k =>
        rw [altBlocks_succ, nn50_cons_cons, ← altBlocks_succ]
        norm_num
    rw [altBlocks_succ, nn50_cons_cons, hhead, ih]
    norm_num
    omega

lemma nn50Abs_altBlocks (n : ℕ) (h : 1 ≤ n) : nn50Abs (altBlocks n) = 2 * n - 1 := by
  induction n with
  | zero => omega
  | succ m ih =>
    cases m with
    | zero =>
      simp only [altBlocks, nn50Abs_cons_cons]
      rw [show |(0.9 : ℚ) - 0.8| = 0.1 by norm_num,
        show nn50Abs [(0.9 : ℚ)] = 0 from rfl]
      norm_num
    | succ k =>
      rw [altBlocks_succ, nn50Abs_cons_cons]
      have hhead : nn50Abs ((0.9 : ℚ) :: altBlocks (k + 1)) =
          (if |(0.8 : ℚ) - 0.9| > 0.05 then 1 else 0) + nn50Abs (altBlocks (k + 1)) := by
        rw [altBlocks_succ, nn50Abs_cons_cons, ← altBlocks_succ]
      rw [hhead, ih (by omega)]
      rw [show |(0.9 : ℚ) - 0.8| = 0.1 by norm_num, show |(0.8 : ℚ) - 0.9| = 0.1 by norm_num]
      norm_num
      omega

/-- C9: the five entry points equal the windowing engine applied with the
canonical window sizes (60 s for RMSSD and SDNN, 120 s for NN50, pNN50 and
max-min HR) and the matching reducers. -/
theorem entry_points_bind_canonical_windows :
    (∀ (time data : List ℚ), getRMSSD time data = chunckData time data 60 rmssd) ∧
    (∀ (time data : List ℚ), getSDNN time data = chunckData time data 60 sdnn) ∧
    (∀ (time data : List ℚ), getNN50 time data = chunckData time data 120 nn50) ∧
    (∀ (time data : List ℚ), getPNN50 time data = chunckData time data 120 pnn50) ∧
    (∀ (time data : List ℚ), getHRMaxMin time data = chunckData time data 120 hrMaxMin) :=
  ⟨fun _ _ => rfl, fun _ _ => rfl, fun _ _ => rfl, fun _ _ => rfl, fun _ _ => rfl⟩

/-- C2 counterexample: on the alternating sequence 0.8, 0.9, 0.8, 0.9 the
source `nn50` counts only 2 pairs, while all 3 adjacent pairs differ
(in absolute value) by 0.1 > 0.05, so "every adjacent pair is counted" fails:
the descending pairs are not counted. -/
theorem nn50_alternating_counterexample :
    nn50 [0.8, 0.9, 0.8, 0.9] = 2 ∧ nn50Abs [0.8, 0.9, 0.8, 0.9] = 3 ∧ (2 : ℕ) ≠ 3 := by
  refine ⟨?_, ?_, by omega⟩
  · rw [show ([0.8, 0.9, 0.8, 0.9] : List ℚ) = altBlocks 2 from rfl]
    exact nn50_altBlocks 2
  · rw [show ([0.8, 0.9, 0.8, 0.9] : List ℚ) = altBlocks 2 from rfl]
    exact nn50Abs_altBlocks 2 (by omega)

/-- C2 amended: `nn50` counts the adjacent-index pairs whose signed
difference (later element minus earlier element) exceeds 0.05 s; on the
alternating sequence 0.8, 0.9 repeated n times it therefore counts exactly
the n ascending pairs, not all 2n - 1 adjacent pairs. -/
theorem nn50_counts_signed_ascending_pairs (n : ℕ) (h : 1 ≤ n) :
    nn50 (altBlocks n) = n ∧ nn50Abs (altBlocks n) = 2 * n - 1 :=
  ⟨nn50_altBlocks n, nn50Abs_altBlocks n h⟩

/-- Witness for the amended C2 theorem at n = 2. -/
theorem nn50_counts_signed_ascending_pairs_witness :
    1 ≤ 2 ∧ (nn50 (altBlocks 2) = 2 ∧ nn50Abs (altBlocks 2) = 2 * 2 - 1) :=
  ⟨by omega, nn50_counts_signed_ascending_pairs 2 (by omega)⟩

lemma nn50_le_length_sub_one (l : List ℚ) : nn50 l ≤ l.length - 1 := by
  have h1 : nn50 l ≤ (l.zip l.tail).length := List.length_filter_le _ _
  have h2 : (l.zip l.tail).length = l.length ⊓ l.tail.length := List.length_zip l l.tail
  have h3 : l.tail.length = l.length - 1 := List.length_tail l
  omega

/-- C10: on a non-empty interval sequence `pnn50` returns a value `v` with
`0 ≤ v < 100`, because `nn50` counts at most `n - 1` adjacent pairs and
`pnn50 = nn50 * 100 / n`. -/
theorem pnn50_bounds (l : List ℚ) (h : l ≠ []) :
    ∃ v, pnn50 l = some v ∧ 0 ≤ v ∧ v < 100 := by
  have hlen : l.length ≠ 0 := by
    have := List.length_pos.mpr h
    omega
  have hpos : (0 : ℚ) < (l.length : ℚ) := by
    exact_mod_cast Nat.pos_of_ne_zero hlen
  refine ⟨((nn50 l : ℚ) * 100) / (l.length : ℚ), ?_, ?_, ?_⟩
  · rw [pnn50, if_neg hlen]
  · positivity
  · rw [div_lt_iff₀ hpos]
    have hcount : nn50 l < l.length := by
      have := nn50_le_length_sub_one l
      omega
    have hq : (nn50 l : ℚ) < (l.length : ℚ) := by exact_mod_cast hcount
    nlinarith

/-- Witness for C10 at the concrete sequence 0.8, 0.9. -/
theorem pnn50_bounds_witness :
    ([0.8, 0.9] : List ℚ) ≠ [] ∧
      ∃ v, pnn50 [0.8, 0.9] = some v ∧ 0 ≤ v ∧ v < 100 :=
  ⟨by simp, pnn50_bounds [0.8, 0.9] (by simp)⟩

/-- C3 counterexample: there is no input validation.  A reducer invoked
directly on the empty interval sequence does not fail: `hrMaxMin` returns the
silent default `0 - 1000 = -1000`.  And `chunckData` on index-misaligned
inputs (3 timestamps, 2 intervals) raises nothing: it returns a
normally-computed record built from a silently truncated slice. -/
theorem chunck_no_validation_counterexample :
    hrMaxMin [] = -1000 ∧
    chunckData [0, 30, 70] [(0.5 : ℚ), 0.8] 60 nn50 = [(0, 70, 0)] := by
  constructor
  · norm_num [hrMaxMin]
  · rw [chunckData]
    rw [chunckAux]; norm_num [pySlice]
    rw [chunckAux]; norm_num [pySlice]
    rw [chunckAux]; norm_num [pySlice, nn50]
    rw [chunckAux]; norm_num

/-- C3 amended: the core performs no input validation.  Of the reducers
invoked directly on an empty sequence only `pnn50` fails (division by zero,
modelled by `none`); `rmssd` and `nn50` return the silent default `0` and
`hrMaxMin` returns `-1000`.  `chunckData` accepts mismatched sequence lengths
(silently truncating the window slices) and accepts a non-positive window
size (emitting a degenerate zero-length window), returning normally-computed
output in both cases. -/
theorem chunck_no_validation :
    pnn50 [] = none ∧ rmssd [] = 0 ∧ nn50 [] = 0 ∧ hrMaxMin [] = -1000 ∧
    chunckData [0, 30, 70] [(0.5 : ℚ), 0.8] 60 nn50 = [(0, 70, 0)] ∧
    chunckData [0, 5] [(0.5 : ℚ), 0.6] (-1) nn50 = [(0, 0, 0)] := by
  refine ⟨rfl, by norm_num [rmssd], rfl, by norm_num [hrMaxMin], ?_, ?_⟩
  · rw [chunckData]
    rw [chunckAux]; norm_num [pySlice]
    rw [chunckAux]; norm_num [pySlice]
    rw [chunckAux]; norm_num [pySlice, nn50]
    rw [chunckAux]; norm_num
  · rw [chunckData]
    rw [chunckAux]; norm_num [pySlice, nn50]
    rw [chunckAux]; norm_num [pySlice]
    rw [chunckAux]; norm_num

lemma hrMaxMin_foldl_split (ibi : List ℚ) :
    ∀ p : ℚ × ℚ,
      ibi.foldl (fun (s : ℚ × ℚ) x =>
        (if 60 / x > s.1 then 60 / x else s.1,
         if 60 / x < s.2 then 60 / x else s.2)) p =
      (ibi.foldl (fun s x => if 60 / x > s then 60 / x else s) p.1,
       ibi.foldl (fun s x => if 60 / x < s then 60 / x else s) p.2) := by
  induction ibi with
  | nil => intro p; rfl
  | cons x t ih =>
    intro p
    simp only [List.foldl_cons]
    exact ih _

lemma le_foldl_hrmax (l : List ℚ) :
    ∀ a : ℚ, a ≤ l.foldl (fun s x => if 60 / x > s then 60 / x else s) a := by
  induction l with
  | nil => intro a; exact le_refl a
  | cons x t ih =>
    intro a
    simp only [List.foldl_cons]
    refine le_trans ?_ (ih _)
    split_ifs with h
    · exact le_of_lt h
    · exact le_refl a

lemma foldl_hrmax_ge_mem (l : List ℚ) :
    ∀ a : ℚ, ∀ y ∈ l, 60 / y ≤ l.foldl (fun s x => if 60 / x > s then 60 / x else s) a := by
  induction l with
  | nil => intro a y hy; exact absurd hy (List.not_mem_nil y)
  | cons x t ih =>
    intro a y hy
    simp only [List.foldl_cons]
    rcases List.mem_cons.mp hy with rfl | hy
    · refine le_trans ?_ (le_foldl_hrmax t _)
      split_ifs with h
      · exact le_refl _
      · exact le_of_not_lt h
    · exact ih _ y hy

lemma foldl_hrmax_attained (l : List ℚ) :
    ∀ a : ℚ, l.foldl (fun s x => if 60 / x > s then 60 / x else s) a = a ∨
      ∃ y ∈ l, l.foldl (fun s x => if 60 / x > s then 60 / x else s) a = 60 / y := by
  induction l with
  | nil => intro a; exact Or.inl rfl
  | cons x t ih =>
    intro a
    simp only [List.foldl_cons]
    rcases ih (if 60 / x > a then 60 / x else a) with h | ⟨y, hy, h⟩
    · rw [h]
      split_ifs with hx
      · exact Or.inr ⟨x, List.mem_cons_self x t, rfl⟩
      · exact Or.inl rfl
    · exact Or.inr ⟨y, List.mem_cons_of_mem x hy, h⟩

lemma foldl_hrmin_le_self (l : List ℚ) :
    ∀ a : ℚ, l.foldl (fun s x => if 60 / x < s then 60 / x else s) a ≤ a := by
  induction l with
  | nil => intro a; exact le_refl a
  | cons x t ih =>
    intro a
    simp only [List.foldl_cons]
    refine le_trans (ih _) ?_
    split_ifs with h
    · exact le_of_lt h
    · exact le_refl a

lemma foldl_hrmin_le_mem (l : List ℚ) :
    ∀ a : ℚ, ∀ y ∈ l, l.foldl (fun s x => if 60 / x < s then 60 / x else s) a ≤ 60 / y := by
  induction l with
  | nil => intro a y hy; exact absurd hy (List.not_mem_nil y)
  | cons x t ih =>
    intro a y hy
    simp only [List.foldl_cons]
    rcases List.mem_cons.mp hy with rfl | hy
    · refine le_trans (foldl_hrmin_le_self t _) ?_
      split_ifs with h
      · exact le_refl _
      · exact le_of_not_lt h
    · exact ih _ y hy

lemma foldl_hrmin_attained (l : List ℚ) :
    ∀ a : ℚ, l.foldl (fun s x => if 60 / x < s then 60 / x else s) a = a ∨
      ∃ y ∈ l, l.foldl (fun s x => if 60 / x < s then 60 / x else s) a = 60 / y := by
  induction l with
  | nil => intro a; exact Or.inl rfl
  | cons x t ih =>
    intro a
    simp only [List.foldl_cons]
    rcases ih (if 60 / x < a then 60 / x else a) with h | ⟨y, hy, h⟩
    · rw [h]
      split_ifs with hx
      · exact Or.inr ⟨x, List.mem_cons_self x t, rfl⟩
      · exact Or.inl rfl
    · exact Or.inr ⟨y, List.mem_cons_of_mem x hy, h⟩

/-- C4 counterexample: a single-sample window does not always yield 0.  On
the (positive) interval 0.05 s the heart rate is 1200 beats/min, which
exceeds the sentinel initialization `hrmin = 1000`, so the minimum is never
updated and `hrMaxMin [0.05] = 1200 - 1000 = 200`, not
`max(60/x) - min(60/x) = 0`. -/
theorem hrMaxMin_sentinel_counterexample :
    hrMaxMin [0.05] = 200 ∧ (200 : ℚ) ≠ 0 := by
  constructor
  · norm_num [hrMaxMin]
  · norm_num

/-- C4 amended: for every non-empty sequence of positive intervals containing
at least one interval of at least 0.06 s (equivalently, whose minimum heart
rate does not exceed the 1000 beats/min sentinel), `hrMaxMin` returns
`max(60/x_i) - min(60/x_i)`; a single-sample window with interval at least
0.06 s yields 0, and the intervals 0.5, 1.0, 2.0 yield 90. -/
theorem hrMaxMin_max_minus_min :
    (∀ l : List ℚ, l ≠ [] → (∀ x ∈ l, 0 < x) → (∃ x ∈ l, (0.06 : ℚ) ≤ x) →
      ∃ a b, a ∈ l.map (fun x => 60 / x) ∧ b ∈ l.map (fun x => 60 / x) ∧
        (∀ y ∈ l.map (fun x => 60 / x), y ≤ a) ∧
        (∀ y ∈ l.map (fun x => 60 / x), b ≤ y) ∧
        hrMaxMin l = a - b) ∧
    (∀ x : ℚ, 0.06 ≤ x → hrMaxMin [x] = 0) ∧
    hrMaxMin [0.5, 1, 2] = 90 := by
  refine ⟨?_, ?_, by norm_num [hrMaxMin]⟩
  · intro l hne hpos hsome
    have hsplit := hrMaxMin_foldl_split l (0, 1000)
    set M := l.foldl (fun s x => if 60 / x > s then 60 / x else s) (0 : ℚ) with hM
    set m := l.foldl (fun s x => if 60 / x < s then 60 / x else s) (1000 : ℚ) with hm
    have hval : hrMaxMin l = M - m := by
      rw [hrMaxMin, hsplit]
    obtain ⟨x₀, hx₀⟩ := List.exists_mem_of_ne_nil l hne
    have hMattained : ∃ y ∈ l, M = 60 / y := by
      rcases foldl_hrmax_attained l 0 with h | h
      · exfalso
        have h1 : 60 / x₀ ≤ M := foldl_hrmax_ge_mem l 0 x₀ hx₀
        have h2 : 0 < 60 / x₀ := by
          have := hpos x₀ hx₀
          positivity
        have h3 : M = 0 := by rw [hM]; exact h
        linarith
      · exact h
    have hmattained : ∃ y ∈ l, m = 60 / y := by
      rcases foldl_hrmin_attained l 1000 with h | h
      · obtain ⟨x₁, hx₁, hx₁ge⟩ := hsome
        have hx₁pos : 0 < x₁ := hpos x₁ hx₁
        have h1 : m ≤ 60 / x₁ := foldl_hrmin_le_mem l 1000 x₁ hx₁
        have h2 : 60 / x₁ ≤ 1000 := by
          rw [div_le_iff₀ hx₁pos]
          linarith
        refine ⟨x₁, hx₁, ?_⟩
        have h3 : m = 1000 := by rw [hm]; exact h
        linarith
      · exact h
    obtain ⟨ya, hya, hMeq⟩ := hMattained
    obtain ⟨yb, hyb, hmeq⟩ := hmattained
    refine ⟨M, m, ?_, ?_, ?_, ?_, hval⟩
    · exact hMeq ▸ List.mem_map_of_mem (fun x => 60 / x) hya
    · exact hmeq ▸ List.mem_map_of_mem (fun x => 60 / x) hyb
    · intro y hy
      obtain ⟨z, hz, rfl⟩ := List.mem_map.mp hy
      exact foldl_hrmax_ge_mem l 0 z hz
    · intro y hy
      obtain ⟨z, hz, rfl⟩ := List.mem_map.mp hy
      exact foldl_hrmin_le_mem l 1000 z hz
  · intro x hx
    have hxpos : (0 : ℚ) < x := lt_of_lt_of_le (by norm_num) hx
    have hhr : (0 : ℚ) < 60 / x := by positivity
    have hle : 60 / x ≤ 1000 := by
      rw [div_le_iff₀ hxpos]
      linarith
    rw [hrMaxMin]
    simp only [List.foldl_cons, List.foldl_nil]
    rcases lt_or_eq_of_le hle with hlt | heq
    · rw [if_pos hhr, if_pos hlt]
      ring
    · rw [if_pos hhr, if_neg (by rw [heq]; exact lt_irrefl 1000)]
      rw [heq]
      ring

/-- Witness for the amended C4 theorem at the spec scenario 0.5, 1.0, 2.0. -/
theorem hrMaxMin_max_minus_min_witness :
    (([0.5, 1, 2] : List ℚ) ≠ [] ∧ (∀ x ∈ ([0.5, 1, 2] : List ℚ), 0 < x) ∧
      (∃ x ∈ ([0.5, 1, 2] : List ℚ), (0.06 : ℚ) ≤ x)) ∧
    (∃ a b, a ∈ ([0.5, 1, 2] : List ℚ).map (fun x => 60 / x) ∧
      b ∈ ([0.5, 1, 2] : List ℚ).map (fun x => 60 / x) ∧
      (∀ y ∈ ([0.5, 1, 2] : List ℚ).map (fun x => 60 / x), y ≤ a) ∧
      (∀ y ∈ ([0.5, 1, 2] : List ℚ).map (fun x => 60 / x), b ≤ y) ∧
      hrMaxMin [0.5, 1, 2] = a - b) :=
  ⟨⟨by simp, by norm_num, ⟨1, by norm_num⟩⟩,
    hrMaxMin_max_minus_min.1 [0.5, 1, 2] (by simp) (by norm_num) ⟨1, by norm_num⟩⟩

lemma foldl_hrmax_perm {l l' : List ℚ} (p : l.Perm l') :
    ∀ a : ℚ, l.foldl (fun s x => if 60 / x > s then 60 / x else s) a =
      l'.foldl (fun s x => if 60 / x > s then 60 / x else s) a := by
  induction p with
  | nil => intro a; rfl
  | cons x _ ih =>
    intro a
    simp only [List.foldl_cons]
    exact ih _
  | swap x y l =>
    intro a
    simp only [List.foldl_cons]
    congr 1
    split_ifs <;> linarith
  | trans _ _ ih1 ih2 =>
    intro a
    rw [ih1, ih2]

lemma foldl_hrmin_perm {l l' : List ℚ} (p : l.Perm l') :
    ∀ a : ℚ, l.foldl (fun s x => if 60 / x < s then 60 / x else s) a =
      l'.foldl (fun s x => if 60 / x < s then 60 / x else s) a := by
  induction p with
  | nil => intro a; rfl
  | cons x _ ih =>
    intro a
    simp only [List.foldl_cons]
    exact ih _
  | swap x y l =>
    intro a
    simp only [List.foldl_cons]
    congr 1
    split_ifs <;> linarith
  | trans _ _ ih1 ih2 =>
    intro a
    rw [ih1, ih2]

lemma hrMaxMin_perm {l l' : List ℚ} (p : l.Perm l') : hrMaxMin l = hrMaxMin l' := by
  simp only [hrMaxMin]
  rw [hrMaxMin_foldl_split l, hrMaxMin_foldl_split l',
    foldl_hrmax_perm p, foldl_hrmin_perm p]

lemma sdnn_perm {l l' : List ℚ} (p : l.Perm l') : sdnn l = sdnn l' := by
  have hsum : l.sum = l'.sum := p.sum_eq
  have hlen : l.length = l'.length := p.length_eq
  have hmap : (l.map (fun x =>
      (x - l.sum / (l.length : ℚ)) * (x - l.sum / (l.length : ℚ)))).sum =
      (l'.map (fun x =>
      (x - l'.sum / (l'.length : ℚ)) * (x - l'.sum / (l'.length : ℚ)))).sum := by
    rw [hsum, hlen]
    exact (p.map _).sum_eq
  rw [sdnn, sdnn, hmap, hlen]

lemma rmssd_cx_left : rmssd [0, 0, 1, 0] = Real.sqrt ((2 : ℝ) / 3) := by
  rw [rmssd]
  norm_num [List.zip]

lemma rmssd_cx_right : rmssd [1, 0, 0, 0] = Real.sqrt ((1 : ℝ) / 3) := by
  rw [rmssd]
  norm_num [List.zip]

lemma nn50_cx_left : nn50 [0.9, 0.8, 0.8] = 0 := by
  rw [nn50_cons_cons, nn50_cons_cons, show nn50 [(0.8 : ℚ)] = 0 from rfl]
  norm_num

lemma nn50_cx_right : nn50 [0.8, 0.8, 0.9] = 1 := by
  rw [nn50_cons_cons, nn50_cons_cons, show nn50 [(0.9 : ℚ)] = 0 from rfl]
  norm_num

lemma perm_cx_q : ([0.9, 0.8, 0.8] : List ℚ).Perm [0.8, 0.8, 0.9] :=
  (List.Perm.swap 0.8 0.9 [0.8]).trans
    (List.Perm.cons 0.8 (List.Perm.swap 0.8 0.9 []))

/-- C8 counterexample: `pnn50` is not permutation-invariant.  Swapping the
two non-adjacent end elements of the window 0.9, 0.8, 0.8 changes `pnn50`
from 0 to 100/3, because `pnn50` is built on the order-sensitive `nn50`. -/
theorem pnn50_perm_counterexample :
    ([0.9, 0.8, 0.8] : List ℚ).Perm [0.8, 0.8, 0.9] ∧
    pnn50 [0.9, 0.8, 0.8] = some 0 ∧ pnn50 [0.8, 0.8, 0.9] = some (100 / 3) ∧
    (0 : ℚ) ≠ 100 / 3 := by
  refine ⟨perm_cx_q, ?_, ?_, by norm_num⟩
  · rw [pnn50, if_neg (by norm_num), nn50_cx_left]
    norm_num
  · rw [pnn50, if_neg (by norm_num), nn50_cx_right]
    norm_num

/-- C8 corrected: `sdnn` and `hrMaxMin` are invariant under any permutation
of the interval sequence, while `rmssd`, `nn50` and also `pnn50` (contrary to
the claim, since `pnn50` is `nn50`-based) are order-dependent: swapping the
two non-adjacent end elements of a concrete window changes each of their
results. -/
theorem reducer_order_sensitivity :
    (∀ l l' : List ℚ, l.Perm l' → sdnn l = sdnn l') ∧
    (∀ l l' : List ℚ, l.Perm l' → hrMaxMin l = hrMaxMin l') ∧
    (([0, 0, 1, 0] : List ℚ).Perm [1, 0, 0, 0] ∧
      rmssd [0, 0, 1, 0] ≠ rmssd [1, 0, 0, 0]) ∧
    (([0.9, 0.8, 0.8] : List ℚ).Perm [0.8, 0.8, 0.9] ∧
      nn50 [0.9, 0.8, 0.8] ≠ nn50 [0.8, 0.8, 0.9]) ∧
    (([0.9, 0.8, 0.8] : List ℚ).Perm [0.8, 0.8, 0.9] ∧
      pnn50 [0.9, 0.8, 0.8] ≠ pnn50 [0.8, 0.8, 0.9]) := by
  refine ⟨fun l l' p => sdnn_perm p, fun l l' p => hrMaxMin_perm p, ⟨?_, ?_⟩,
    ⟨perm_cx_q, ?_⟩, ⟨perm_cx_q, ?_⟩⟩
  · exact (List.Perm.cons 0 (List.Perm.swap 1 0 [0])).trans
      (List.Perm.swap 1 0 [0, 0])
  · rw [rmssd_cx_left, rmssd_cx_right]
    exact (Real.sqrt_lt_sqrt (by norm_num) (by norm_num)).ne.symm
  · rw [nn50_cx_left, nn50_cx_right]
    omega
  · rw [pnn50, pnn50, if_neg (by norm_num), if_neg (by norm_num),
      nn50_cx_left, nn50_cx_right]
    norm_num

/-- Witness for C8: the two invariance conjuncts applied at a concrete
transposition. -/
theorem reducer_order_sensitivity_witness :
    sdnn [0.8, 0.9] = sdnn [0.9, 0.8] ∧ hrMaxMin [0.8, 0.9] = hrMaxMin [0.9, 0.8] :=
  ⟨reducer_order_sensitivity.1 _ _ (List.Perm.swap 0.9 0.8 []),
   reducer_order_sensitivity.2.1 _ _ (List.Perm.swap 0.9 0.8 [])⟩

lemma rmssd_zip_sum_eq (l : List ℚ) :
    ((l.zip l.tail).map (fun p => (p.2 - p.1) * (p.2 - p.1))).sum =
      ∑ i in Finset.range (l.length - 1), (l.getD (i + 1) 0 - l.getD i 0) ^ 2 := by
  induction l with
  | nil => simp
  | cons a t ih =>
    cases t with
    | nil => simp
    | cons b u =>
      have hstep : ((a :: b :: u).zip (a :: b :: u).tail) =
          (a, b) :: ((b :: u).zip (b :: u).tail) := by
        simp [List.zip]
      rw [hstep, List.map_cons, List.sum_cons, ih]
      have hlen : (a :: b :: u).length - 1 = ((b :: u).length - 1) + 1 := by simp
      rw [hlen, Finset.sum_range_succ']
      have h0 : ((a :: b :: u).getD (0 + 1) 0 - (a :: b :: u).getD 0 0) ^ 2 =
          (b - a) * (b - a) := by
        simp [pow_two]
      have hsucc : ∀ i ∈ Finset.range ((b :: u).length - 1),
          ((a :: b :: u).getD (i + 1 + 1) 0 - (a :: b :: u).getD (i + 1) 0) ^ 2 =
          ((b :: u).getD (i + 1) 0 - (b :: u).getD i 0) ^ 2 := by
        intro i _
        rfl
      rw [Finset.sum_congr rfl hsucc, h0]
      ring

lemma zip_sum_eq_ico (l : List ℚ) :
    ((l.zip l.tail).map (fun p => (p.2 - p.1) * (p.2 - p.1))).sum =
      ∑ i in Finset.Ico 1 l.length, (l.getD i 0 - l.getD (i - 1) 0) ^ 2 := by
  rw [rmssd_zip_sum_eq, Finset.sum_Ico_eq_sum_range]
  apply Finset.sum_congr rfl
  intro i _
  have h1 : 1 + i = i + 1 := by omega
  rw [h1, Nat.add_sub_cancel]

lemma zip_sum_zero_of_len_one (l : List ℚ) (h : l.length = 1) :
    ((l.zip l.tail).map (fun p => (p.2 - p.1) * (p.2 - p.1))).sum = 0 := by
  rw [rmssd_zip_sum_eq, h]
  simp

lemma replicate_zip_sum_zero (c : ℚ) (n : ℕ) :
    (((List.replicate n c).zip (List.replicate n c).tail).map
      (fun p => (p.2 - p.1) * (p.2 - p.1))).sum = 0 := by
  apply List.sum_eq_zero
  intro x hx
  obtain ⟨⟨p1, p2⟩, hp, rfl⟩ := List.mem_map.mp hx
  have hmem := List.of_mem_zip hp
  have e1 := List.eq_of_mem_replicate hmem.1
  have e2 : p2 = c := by
    have h2 := hmem.2
    cases n with
    | zero => simp at h2
    | succ k =>
      rw [show (List.replicate (k + 1) c).tail = List.replicate k c by simp] at h2
      exact List.eq_of_mem_replicate h2
  rw [e1, e2, sub_self, mul_zero]

/-- C7: `rmssd` returns `sqrt( sum_(i=1)^(n-1) (x_i - x_(i-1))^2 / (n-1) )`
when the sum of squared successive differences is positive, and `0` when that
sum is zero or the window has a single sample; in particular `rmssd` of a
constant-interval sequence is exactly `0`. -/
theorem rmssd_formula (l : List ℚ) (h : l ≠ []) :
    (0 < ∑ i in Finset.Ico 1 l.length, (l.getD i 0 - l.getD (i - 1) 0) ^ 2 →
      rmssd l = Real.sqrt
        (((∑ i in Finset.Ico 1 l.length, (l.getD i 0 - l.getD (i - 1) 0) ^ 2 : ℚ) : ℝ) /
          ((l.length : ℝ) - 1))) ∧
    ((∑ i in Finset.Ico 1 l.length, (l.getD i 0 - l.getD (i - 1) 0) ^ 2 = 0 ∨
        l.length = 1) → rmssd l = 0) ∧
    (∀ (c : ℚ) (m : ℕ), rmssd (List.replicate m c) = 0) := by
  have hlen1 : 1 ≤ l.length := List.length_pos.mpr h
  refine ⟨?_, ?_, ?_⟩
  · intro hS
    rw [rmssd]
    have hs := zip_sum_eq_ico l
    rw [if_pos (by rw [hs]; exact hS)]
    rw [hs]
    congr 1
    rw [Nat.cast_sub hlen1]
    norm_num
  · intro hS
    rw [rmssd]
    rcases hS with hS | hS
    · rw [if_neg (by rw [zip_sum_eq_ico l, hS]; exact lt_irrefl 0)]
    · rw [if_neg (by rw [zip_sum_zero_of_len_one l hS]; exact lt_irrefl 0)]
  · intro c m
    rw [rmssd]
    rw [if_neg (by rw [replicate_zip_sum_zero c m]; exact lt_irrefl 0)]

/-- Witness for C7 at the concrete sequence 1, 2. -/
theorem rmssd_formula_witness :
    ([1, 2] : List ℚ) ≠ [] ∧
    ((0 < ∑ i in Finset.Ico 1 ([1, 2] : List ℚ).length,
        (([1, 2] : List ℚ).getD i 0 - ([1, 2] : List ℚ).getD (i - 1) 0) ^ 2 →
      rmssd [1, 2] = Real.sqrt
        (((∑ i in Finset.Ico 1 ([1, 2] : List ℚ).length,
            (([1, 2] : List ℚ).getD i 0 - ([1, 2] : List ℚ).getD (i - 1) 0) ^ 2 : ℚ) : ℝ) /
          ((([1, 2] : List ℚ).length : ℝ) - 1))) ∧
    ((∑ i in Finset.Ico 1 ([1, 2] : List ℚ).length,
        (([1, 2] : List ℚ).getD i 0 - ([1, 2] : List ℚ).getD (i - 1) 0) ^ 2 = 0 ∨
        ([1, 2] : List ℚ).length = 1) → rmssd [1, 2] = 0) ∧
    (∀ (c : ℚ) (m : ℕ), rmssd (List.replicate m c) = 0)) :=
  ⟨by simp, rmssd_formula [1, 2] (by simp)⟩

lemma getD_mono_of_sorted {time : List ℚ} (hsort : time.Pairwise (· ≤ ·))
    {i j : ℕ} (hij : i ≤ j) (hj : j < time.length) :
    time.getD i 0 ≤ time.getD j 0 := by
  rcases eq_or_lt_of_le hij with rfl | hlt
  · exact le_refl _
  · have hi : i < time.length := lt_trans hlt hj
    rw [List.getD_eq_getElem time 0 hi, List.getD_eq_getElem time 0 hj]
    exact List.pairwise_iff_getElem.mp hsort i j hi hj hlt

lemma chunckAux_eq_nil_of_no_close {α β : Type} (time : List ℚ) (data : List α)
    (w : ℚ) (op : List α → β) (wsi : ℕ)
    (hno : ∀ u, u < time.length → time.getD u 0 - time.getD wsi 0 < w) :
    ∀ fuel t, time.length - t ≤ fuel → chunckAux time data w op wsi t = [] := by
  intro fuel
  induction fuel with
  | zero =>
    intro t ht
    rw [chunckAux, if_neg (by omega)]
  | succ k ih =>
    intro t ht
    rw [chunckAux]
    by_cases htlen : t < time.length
    · rw [if_pos htlen, if_neg (not_le.mpr (hno t htlen)), ih (t + 1) (by omega)]
    · rw [if_neg htlen]

/-- C6: a series with zero samples yields an empty record sequence, and so
does any sorted series whose total duration (last timestamp minus first) is
less than the window size: the window never closes. -/
theorem chunck_short_series_empty {α β : Type} :
    (∀ (data : List α) (w : ℚ) (op : List α → β), chunckData [] data w op = []) ∧
    (∀ (time : List ℚ) (data : List α) (w : ℚ) (op : List α → β),
      time.Pairwise (· ≤ ·) →
      time.getD (time.length - 1) 0 - time.getD 0 0 < w →
      chunckData time data w op = []) := by
  constructor
  · intro data w op
    rw [chunckData, chunckAux]
    simp
  · intro time data w op hsort hshort
    rw [chunckData]
    refine chunckAux_eq_nil_of_no_close time data w op 0 ?_ time.length 0 (by omega)
    intro u hu
    have h1 : time.getD u 0 ≤ time.getD (time.length - 1) 0 :=
      getD_mono_of_sorted hsort (by omega) (by omega)
    linarith

/-- Witness for C6: a sorted 2-sample series spanning 30 s with a 60 s
window produces no records. -/
theorem chunck_short_series_empty_witness :
    (List.Pairwise (· ≤ ·) ([0, 30] : List ℚ) ∧
      ([0, 30] : List ℚ).getD (([0, 30] : List ℚ).length - 1) 0 -
        ([0, 30] : List ℚ).getD 0 0 < 60) ∧
    chunckData [0, 30] [(0.5 : ℚ), 0.8] 60 nn50 = [] :=
  ⟨⟨by norm_num [List.pairwise_cons], by norm_num⟩,
    chunck_short_series_empty.2 [0, 30] [(0.5 : ℚ), 0.8] 60 nn50
      (by norm_num [List.pairwise_cons]) (by norm_num)⟩

lemma chunckAux_records {α β : Type} (time : List ℚ) (data : List α) (w : ℚ)
    (op : List α → β) (hsort : time.Pairwise (· ≤ ·)) :
    ∀ fuel t wsi, time.length - t ≤ fuel → wsi ≤ t →
      (∀ r ∈ chunckAux time data w op wsi t,
        w ≤ r.2.1 - r.1 ∧ r.1 ∈ time ∧ r.2.1 ∈ time ∧
        time.getD wsi 0 ≤ r.1 ∧ ∃ s, s ≠ [] ∧ r.2.2 = op s) ∧
      (chunckAux time data w op wsi t).Pairwise (fun a b => a.2.1 ≤ b.1) := by
  intro fuel
  induction fuel with
  | zero =>
    intro t wsi ht hwt
    rw [chunckAux, if_neg (by omega)]
    exact ⟨fun r hr => absurd hr (List.not_mem_nil r), List.Pairwise.nil⟩
  | succ k ih =>
    intro t wsi ht hwt
    rw [chunckAux]
    by_cases htlen : t < time.length
    · rw [if_pos htlen]
      by_cases hcond : time.getD t 0 - time.getD wsi 0 ≥ w
      · rw [if_pos hcond]
        obtain ⟨ihall, ihpw⟩ := ih (t + 1) t (by omega) (by omega)
        by_cases hslice : 0 < (pySlice data wsi ((t : ℤ) - 1)).length
        · rw [if_pos hslice]
          constructor
          · intro r hr
            rcases List.mem_cons.mp hr with rfl | hr
            · refine ⟨hcond, ?_, ?_, le_refl _,
                ⟨pySlice data wsi ((t : ℤ) - 1), List.length_pos.mp hslice, rfl⟩⟩
              · have hwlen : wsi < time.length := lt_of_le_of_lt hwt htlen
                rw [List.getD_eq_getElem time 0 hwlen]
                exact List.getElem_mem hwlen
              · rw [List.getD_eq_getElem time 0 htlen]
                exact List.getElem_mem htlen
            · obtain ⟨h1, h2, h3, h4, h5⟩ := ihall r hr
              exact ⟨h1, h2, h3,
                le_trans (getD_mono_of_sorted hsort hwt htlen) h4, h5⟩
          · refine List.Pairwise.cons ?_ ihpw
            intro b hb
            exact (ihall b hb).2.2.2.1
        · rw [if_neg hslice]
          refine ⟨fun r hr => ?_, ihpw⟩
          obtain ⟨h1, h2, h3, h4, h5⟩ := ihall r hr
          exact ⟨h1, h2, h3, le_trans (getD_mono_of_sorted hsort hwt htlen) h4, h5⟩
      · rw [if_neg hcond]
        exact ih (t + 1) wsi (by omega) (by omega)
    · rw [if_neg htlen]
      exact ⟨fun r hr => absurd hr (List.not_mem_nil r), List.Pairwise.nil⟩

/-- C5: on sorted timestamps and a positive window size, every emitted record
spans at least the window size, consecutive windows do not overlap (each
window's end is at most the next window's start), window start times are
strictly increasing and are input timestamps (as are the window ends), and
every emitted record was computed from a non-empty sample slice (so no
empty-sample window, and no partial trailing window, is ever emitted). -/
theorem chunck_window_invariants {α β : Type} (time : List ℚ) (data : List α)
    (w : ℚ) (op : List α → β) (hw : 0 < w) (hsort : time.Pairwise (· ≤ ·)) :
    (∀ r ∈ chunckData time data w op, w ≤ r.2.1 - r.1) ∧
    (chunckData time data w op).Pairwise (fun a b => a.2.1 ≤ b.1) ∧
    (chunckData time data w op).Pairwise (fun a b => a.1 < b.1) ∧
    (∀ r ∈ chunckData time data w op, r.1 ∈ time ∧ r.2.1 ∈ time) ∧
    (∀ r ∈ chunckData time data w op, ∃ s, s ≠ [] ∧ r.2.2 = op s) := by
  obtain ⟨hall, hpw⟩ :=
    chunckAux_records time data w op hsort time.length 0 0 (by omega) (le_refl 0)
  rw [chunckData]
  refine ⟨fun r hr => (hall r hr).1, hpw, ?_,
    fun r hr => ⟨(hall r hr).2.1, (hall r hr).2.2.1⟩,
    fun r hr => (hall r hr).2.2.2.2⟩
  refine List.Pairwise.imp_of_mem ?_ hpw
  intro a b ha hb hab
  have h1 : w ≤ a.2.1 - a.1 := (hall a ha).1
  linarith

/-- Witness for C5 at a concrete sorted series with two closing windows. -/
theorem chunck_window_invariants_witness :
    ((0 : ℚ) < 60 ∧ List.Pairwise (· ≤ ·) ([0, 30, 70, 140] : List ℚ)) ∧
    ((∀ r ∈ chunckData [0, 30, 70, 140] [(0.5 : ℚ), 0.8, 0.9, 0.7] 60 nn50,
        (60 : ℚ) ≤ r.2.1 - r.1) ∧
      (chunckData [0, 30, 70, 140] [(0.5 : ℚ), 0.8, 0.9, 0.7] 60 nn50).Pairwise
        (fun a b => a.2.1 ≤ b.1) ∧
      (chunckData [0, 30, 70, 140] [(0.5 : ℚ), 0.8, 0.9, 0.7] 60 nn50).Pairwise
        (fun a b => a.1 < b.1) ∧
      (∀ r ∈ chunckData [0, 30, 70, 140] [(0.5 : ℚ), 0.8, 0.9, 0.7] 60 nn50,
        r.1 ∈ ([0, 30, 70, 140] : List ℚ) ∧ r.2.1 ∈ ([0, 30, 70, 140] : List ℚ)) ∧
      (∀ r ∈ chunckData [0, 30, 70, 140] [(0.5 : ℚ), 0.8, 0.9, 0.7] 60 nn50,
        ∃ s, s ≠ [] ∧ r.2.2 = nn50 s)) :=
  ⟨⟨by norm_num, by norm_num [List.pairwise_cons]⟩,
    chunck_window_invariants [0, 30, 70, 140] [(0.5 : ℚ), 0.8, 0.9, 0.7] 60 nn50
      (by norm_num) (by norm_num [List.pairwise_cons])⟩

lemma pySlice_eq_drop_take {α : Type} (data : List α) (wsi t : ℕ) (h : 1 ≤ t) :
    pySlice data wsi ((t : ℤ) - 1) = (data.drop wsi).take (t - 1 - wsi) := by
  have hb : (0 : ℤ) ≤ (t : ℤ) - 1 := by omega
  rw [pySlice, if_pos hb]
  have htn : ((t : ℤ) - 1).toNat = t - 1 := by omega
  rw [htn, List.drop_take]

lemma chunckAux_eq_chunckSpecAux {α β : Type} (time : List ℚ) (data : List α)
    (w : ℚ) (op : List α → β) (hw : 0 < w) :
    ∀ fuel t wsi, time.length - t ≤ fuel → wsi ≤ t →
      chunckAux time data w op wsi t = chunckSpecAux time data w op wsi t := by
  intro fuel
  induction fuel with
  | zero =>
    intro t wsi ht hwt
    rw [chunckAux, chunckSpecAux, if_neg (by omega), if_neg (by omega)]
  | succ k ih =>
    intro t wsi ht hwt
    rw [chunckAux, chunckSpecAux]
    by_cases htlen : t < time.length
    · rw [if_pos htlen, if_pos htlen]
      by_cases hcond : time.getD t 0 - time.getD wsi 0 ≥ w
      · rw [if_pos hcond, if_pos hcond]
        have hst : 1 ≤ t := by
          by_contra hlt
          have ht0 : t = 0 := by omega
          subst ht0
          have hw0 : wsi = 0 := by omega
          subst hw0
          have hself : time.getD 0 0 - time.getD 0 0 = 0 := sub_self _
          rw [hself] at hcond
          linarith
        rw [pySlice_eq_drop_take data wsi t hst]
        rcases eq_or_ne ((data.drop wsi).take (t - 1 - wsi)) [] with hnil | hnil
        · rw [if_neg (by rw [hnil]; simp), if_pos (by rw [hnil]; simp)]
          rw [List.nil_append]
          exact ih (t + 1) t (by omega) (by omega)
        · rw [if_pos (List.length_pos.mpr hnil),
            if_neg (by simp [List.isEmpty_iff, hnil])]
          rw [List.singleton_append, ih (t + 1) t (by omega) (by omega)]
      · rw [if_neg hcond, if_neg hcond]
        exact ih (t + 1) wsi (by omega) (by omega)
    · rw [if_neg htlen, if_neg htlen]

/-- C1: for valid input (index-aligned sequences, sorted timestamps, positive
window size), `chunckData` computes exactly the scan the specification
describes: it closes a window at every scan position `t` with
`timestamps[t] - timestamps[windowStartIndex] >= windowSizeSeconds`, takes
the slice `intervals[windowStartIndex, t - 1)`, emits the record
`(timestamps[windowStartIndex], timestamps[t], reduce slice)` exactly when
the slice is non-empty, advances `windowStartIndex` to `t` regardless,
discards the trailing samples, and returns records in scan order. -/
theorem chunckData_matches_spec_scan {α β : Type} (time : List ℚ) (data : List α)
    (w : ℚ) (op : List α → β) (hw : 0 < w) (hsort : time.Pairwise (· ≤ ·))
    (hlen : time.length = data.length) :
    chunckData time data w op = chunckSpec time data w op := by
  rw [chunckData, chunckSpec]
  exact chunckAux_eq_chunckSpecAux time data w op hw time.length 0 0
    (by omega) (le_refl 0)

/-- Witness for C1 at a concrete valid input. -/
theorem chunckData_matches_spec_scan_witness :
    ((0 : ℚ) < 60 ∧ List.Pairwise (· ≤ ·) ([0, 30, 70] : List ℚ) ∧
      ([0, 30, 70] : List ℚ).length = [(0.5 : ℚ), 0.8, 0.9].length) ∧
    chunckData [0, 30, 70] [(0.5 : ℚ), 0.8, 0.9] 60 nn50 =
      chunckSpec [0, 30, 70] [(0.5 : ℚ), 0.8, 0.9] 60 nn50 :=
  ⟨⟨by norm_num, by norm_num [List.pairwise_cons], rfl⟩,
    chunckData_matches_spec_scan [0, 30, 70] [(0.5 : ℚ), 0.8, 0.9] 60 nn50
      (by norm_num) (by norm_num [List.pairwise_cons]) rfl⟩

end PRV
